import Mathlib

set_option maxRecDepth 10000

/-!
Verification of the MyzamAI retrieval / article-resolution core.

Shallow embedding of:
* `core/law_retriever.py`  (`LawRetriever.search`)
* `src/bot/main.py`        (`get_article_by_number`, `_combine_article_parts`,
                            `_clean_article_text`)
* `legalbot/core/process_pdf_civil_code.py`
                           (`parse_articles`, `_clean_article_content`)

Strings are modelled as `List Char` (Python strings are sequences of code
points, and Python indexing/length count code points, exactly matching
`List Char` positions).  Python floats are modelled as `ℚ`; Python `None`
as `Option`.
-/

/-- Python `str.lower` restricted to the character classes occurring in this
corpus: ASCII letters, the basic Cyrillic block `А..Я` (U+0410..U+042F) and
`Ё` (U+0401). -/
def lowerChar (c : Char) : Char :=
  if 65 ≤ c.toNat ∧ c.toNat ≤ 90 then Char.ofNat (c.toNat + 32)
  else if 0x410 ≤ c.toNat ∧ c.toNat ≤ 0x42F then Char.ofNat (c.toNat + 32)
  else if c.toNat = 0x401 then Char.ofNat 0x451
  else c

/-- Python `str.lower` on a whole string. -/
def lowerList (cs : List Char) : List Char := cs.map lowerChar

/-- Python `str.strip()`: remove leading and trailing whitespace. -/
def trimChars (cs : List Char) : List Char :=
  ((cs.dropWhile Char.isWhitespace).reverse.dropWhile Char.isWhitespace).reverse

/-- The decimal digit character for `d < 10`. -/
def digitChar (d : Nat) : Char := Char.ofNat (48 + d)

/-- Decimal digits of a natural number, fuel-based so that it reduces in the
kernel.  Mirrors Python's decimal formatting of an `int` in an f-string. -/
def natCharsAux : Nat → Nat → List Char → List Char
  | 0, _, acc => acc
  | fuel + 1, n, acc =>
    if n < 10 then digitChar n :: acc
    else natCharsAux fuel (n / 10) (digitChar (n % 10) :: acc)

/-- Decimal representation of `n` as a character list. -/
def natChars (n : Nat) : List Char := natCharsAux (n + 1) n []

theorem digitChar_isDigit {d : Nat} (h : d < 10) : (digitChar d).isDigit = true := by
  interval_cases d <;> decide

theorem natCharsAux_digits :
    ∀ (fuel n : Nat) (acc : List Char), (∀ c ∈ acc, c.isDigit = true) →
      ∀ c ∈ natCharsAux fuel n acc, c.isDigit = true := by
  intro fuel
  induction fuel with
  | zero => intro n acc hacc c hc; exact hacc c hc
  | succ fuel ih =>
    intro n acc hacc c hc
    rw [natCharsAux] at hc
    split at hc
    · rcases List.mem_cons.mp hc with h | h
      · subst h; exact digitChar_isDigit (by assumption)
      · exact hacc c h
    · refine ih (n / 10) _ ?_ c hc
      intro x hx
      rcases List.mem_cons.mp hx with h | h
      · subst h; exact digitChar_isDigit (Nat.mod_lt _ (by norm_num))
      · exact hacc x h

/-- Every character of the decimal representation of `n` is a digit. -/
theorem natChars_digits (n : Nat) : ∀ c ∈ natChars n, c.isDigit = true :=
  natCharsAux_digits (n + 1) n [] (by intro c hc; cases hc)

/-! ## Semantic retriever (`core/law_retriever.py`, `LawRetriever.search`) -/

/-- Python `str.split()` (split on whitespace runs, no empty words):
auxiliary accumulator version. -/
def splitWsAux : List Char → List Char → List (List Char)
  | [], cur => if cur.isEmpty then [] else [cur.reverse]
  | c :: rest, cur =>
    if c.isWhitespace then
      if cur.isEmpty then splitWsAux rest [] else cur.reverse :: splitWsAux rest []
    else splitWsAux rest (c :: cur)

/-- Python `query.split()`. -/
def splitWs (cs : List Char) : List (List Char) := splitWsAux cs []

/-- Source `[word.lower() for word in query.split() if len(word) > 3]`
(`search`, line 81). -/
def queryWords (q : List Char) : List (List Char) :=
  ((splitWs q).filter (fun w => 3 < w.length)).map lowerList

/-- Source `sum(1 for word in query_words if word in chunk_lower)`
(`search`, line 89). -/
def relevanceScore (qws : List (List Char)) (chunk : List Char) : Nat :=
  qws.countP (fun w => decide (w <:+: lowerList chunk))

/-- One (ordinal, distance) pair returned by the FAISS k-NN search.  FAISS
returns ordinals as machine integers, with `-1` as the padding sentinel when
the index holds fewer vectors than requested, so the ordinal is an `Int`.
Distances are modelled as `ℚ`. -/
structure KnnHit where
  idx : Int
  dist : ℚ

/-- Source `similarity = 1 / (1 + distance)` (`search`, lines 93 and 105). -/
def score (d : ℚ) : ℚ := 1 / (1 + d)

/-- Python list indexing `chunks[idx]` for an `Int` index: non-negative
indices are positions, negative indices count from the end, anything out of
range raises `IndexError` (modelled as `none`). -/
def pyIndex (chunks : List (List Char)) (i : Int) : Option (List Char) :=
  if 0 ≤ i then chunks.get? i.toNat
  else if 0 ≤ i + chunks.length then chunks.get? (i + chunks.length).toNat
  else none

/-- The main candidate loop of `search` (lines 83-98).  `acc` is `results`.
Returns `none` when the Python code would raise `IndexError`. -/
def searchLoop (chunks : List (List Char)) (qws : List (List Char)) (topK : Nat) :
    List KnnHit → List (List Char × ℚ) → Option (List (List Char × ℚ))
  | [], acc => some acc
  | h :: rest, acc =>
    if h.idx < (chunks.length : Int) then
      match pyIndex chunks h.idx with
      | none => none
      | some chunk =>
        let acc' := if 0 < relevanceScore qws chunk ∨ acc.length < 2 then
            acc ++ [(chunk, score h.dist)]
          else acc
        if topK ≤ acc'.length then some acc' else searchLoop chunks qws topK rest acc'
    else searchLoop chunks qws topK rest acc

/-- The zero-accepted fallback loop of `search` (lines 101-106), applied to
the first two k-NN hits. -/
def fallbackTop2 (chunks : List (List Char)) : List KnnHit → Option (List (List Char × ℚ))
  | [] => some []
  | h :: rest =>
    if h.idx < (chunks.length : Int) then
      match pyIndex chunks h.idx with
      | none => none
      | some chunk =>
        match fallbackTop2 chunks rest with
        | none => none
        | some l => some ((chunk, score h.dist) :: l)
    else fallbackTop2 chunks rest

/-- Model of `LawRetriever.search` (lines 58-108).  The embedding of the query and the
FAISS k-NN call are external collaborators, so the list of `(ordinal,
distance)` hits they produce is a parameter; everything after the k-NN call
is modelled faithfully.  `none` models an uncaught `IndexError`. -/
def search (chunks : List (List Char)) (q : List Char) (topK : Nat)
    (hits : List KnnHit) : Option (List (List Char × ℚ)) :=
  match searchLoop chunks (queryWords q) topK hits [] with
  | none => none
  | some results =>
    if results.isEmpty then
      match fallbackTop2 chunks (hits.take 2) with
      | none => none
      | some fb => some (fb.take topK)
    else some (results.take topK)

/-! ## Exact article resolver (`src/bot/main.py`) -/

/-- Marker `f"Статья {article_num}"` — the exact pattern used by
`get_article_by_number`. -/
def articlePattern (n : Nat) : List Char := "Статья ".data ++ natChars n

/-- The strict-match test of `get_article_by_number` (lines 234-245, and
identically lines 260-268 for FAISS fallback results): the stripped chunk
must start with the exact marker, and the character immediately following
the marker, if any, must not be a digit. -/
def strictArticleMatch (n : Nat) (chunkClean : List Char) : Bool :=
  (articlePattern n).isPrefixOf chunkClean &&
    (match chunkClean.drop (articlePattern n).length with
     | [] => true
     | d :: _ => !d.isDigit)

/-- The exact-scan collection loop of `get_article_by_number`
(lines 231-245): every chunk is stripped, and the stripped text is collected
when it passes the strict-match test. -/
def exactScan (n : Nat) (chunks : List (List Char)) : List (List Char) :=
  (chunks.map trimChars).filter (strictArticleMatch n)

/-- Whitespace-run collapse, `re.sub(r'\s+', ' ', text)`: auxiliary with a
flag recording whether the previous character was whitespace. -/
def collapseWsAux : Bool → List Char → List Char
  | _, [] => []
  | prevWs, c :: rest =>
    if c.isWhitespace then
      if prevWs then collapseWsAux true rest
      else ' ' :: collapseWsAux true rest
    else c :: collapseWsAux false rest

/-- Source `re.sub(r'\s+', ' ', text)`: every maximal whitespace run becomes one
space. -/
def collapseWs (cs : List Char) : List Char := collapseWsAux false cs

/-- Source `re.sub(r'^•\s*', '', text, flags=re.MULTILINE)` (fuel-based): at each
line start, a bullet character and the whitespace run following it are
removed.  The `Bool` flag records whether the scan position is at a line
start. -/
def stripBulletsAux : Nat → Bool → List Char → List Char
  | 0, _, cs => cs
  | _ + 1, _, [] => []
  | fuel + 1, atStart, c :: rest =>
    if atStart ∧ c = '•' then
      let ws := rest.takeWhile Char.isWhitespace
      stripBulletsAux fuel ((ws.getLast?).elim false (fun x => x = '\n'))
        (rest.dropWhile Char.isWhitespace)
    else stripBulletsAux fuel (c = '\n') rest |> (c :: ·)

/-- Source `re.sub(r'^•\s*', '', text, flags=re.MULTILINE)`. -/
def stripBullets (cs : List Char) : List Char := stripBulletsAux cs.length true cs

/-- Python `text.split(sep)` for a one-character separator (keeps empty
pieces, like Python). -/
def splitOnChar (sep : Char) : List Char → List (List Char)
  | [] => [[]]
  | c :: rest =>
    match splitOnChar sep rest with
    | [] => [[c]]
    | h :: t => if c = sep then [] :: h :: t else (c :: h) :: t

/-- The duplicate test of `_clean_article_text` (lines 332-339): `line` is a
duplicate of a kept sentence `s` when either one, if longer than 20
characters, is a substring of the other. -/
def isDupOf (line s : List Char) : Bool :=
  (decide (20 < line.length) && decide (line <:+: s)) ||
    (decide (20 < s.length) && decide (s <:+: line))

/-- The sentence-deduplication loop of `_clean_article_text`
(lines 324-343): sentences are stripped, empty or already-seen or
substring-duplicate sentences are dropped, the rest are kept in order.
`kept` plays the role of both `unique_lines` and `seen_content` (they always
hold the same sentences). -/
def dedupSentences : List (List Char) → List (List Char) → List (List Char)
  | [], kept => kept
  | l :: rest, kept =>
    let l' := trimChars l
    if ¬l'.isEmpty ∧ l' ∉ kept ∧ kept.all (fun s => ¬(isDupOf l' s = true)) then
      dedupSentences rest (kept ++ [l'])
    else dedupSentences rest kept

/-- Source `'. '.join(unique_lines)` (line 346). -/
def joinDotSpace : List (List Char) → List Char
  | [] => []
  | [l] => l
  | l :: ls => l ++ '.' :: ' ' :: joinDotSpace ls

/-- Model of `_clean_article_text` (lines 301-351): remove `=` runs, collapse
whitespace, strip line-leading bullets, de-duplicate sentences split on
periods, re-join with `'. '`, and strip. -/
def cleanArticleText (text : List Char) : List Char :=
  let t1 := text.filter (fun c => c ≠ '=')
  let t2 := collapseWs t1
  let t3 := stripBullets t2
  let uniq := dedupSentences (splitOnChar '.' t3) []
  trimChars (joinDotSpace uniq)

/-- Model of `_combine_article_parts` (lines 280-299): take only the first collected
part and clean it ("" for an empty part list). -/
def combineArticleParts (parts : List (List Char)) : List Char :=
  match parts with
  | [] => []
  | p :: _ => cleanArticleText p

/-- The FAISS-fallback scan of `get_article_by_number` (lines 257-272):
return the first stripped search-result chunk passing the strict-match
test. -/
def fallbackScan (n : Nat) (results : List (List Char)) : Option (List Char) :=
  (results.map trimChars).find? (strictArticleMatch n)

/-- Model of `get_article_by_number` (lines 216-278).  `chunks` is the loaded chunk
array; `results` is the list of chunk texts the FAISS fallback search
returns (the retriever's embedding side is an external collaborator, and the
scores are unused by the code except for logging). -/
def getArticle (n : Nat) (chunks results : List (List Char)) : Option (List Char) :=
  match exactScan n chunks with
  | p :: rest =>
    let fullArticle := combineArticleParts (p :: rest)
    if (articlePattern n).isPrefixOf (trimChars fullArticle) then some fullArticle
    else none
  | [] => fallbackScan n results

/-! ## Corpus segmenter (`legalbot/core/process_pdf_civil_code.py`) -/

/-- The article-marker head `"Статья "` of the regex `r'Статья \d+'` used by
`_clean_article_content` (line 187). -/
def markerPat : List Char := "Статья ".data

/-- There is a match of `r'Статья \d+'` starting at position `i` of `cs`:
the literal `"Статья "` followed by at least one digit. -/
def isMarkerAt (cs : List Char) (i : Nat) : Bool :=
  markerPat.isPrefixOf (cs.drop i) &&
    (match (cs.drop i).drop markerPat.length with
     | d :: _ => d.isDigit
     | [] => false)

/-- All start positions of matches of `r'Статья \d+'` in `cs`, in increasing
order.  (The pattern cannot overlap itself — no character of `"татья "` or a
digit equals `'С'` — so `re.finditer` finds a match at exactly these
positions.) -/
def markerPositions (cs : List Char) : List Nat :=
  (List.range cs.length).filter (isMarkerAt cs)

/-- Lines 185-196 of `_clean_article_content`: when the content matches
`r'Статья \d+'` more than once, keep only `content[:second_match.start()]`,
stripped. -/
def truncateAtSecondMarker (cs : List Char) : List Char :=
  match markerPositions cs with
  | _ :: j :: _ => trimChars (cs.take j)
  | _ => cs

/-- Head matcher for `r'Глава \d+.*?$'` (case-insensitive): the rest of the
current line starts with `"глава "` (lower-cased) followed by a digit. -/
def patGlava (t : List Char) : Bool :=
  lowerList (t.take 6) = "глава ".data &&
    (match t.drop 6 with | d :: _ => d.isDigit | [] => false)

/-- Head matcher for `r'Параграф \d+.*?$'` (case-insensitive). -/
def patParagraf (t : List Char) : Bool :=
  lowerList (t.take 9) = "параграф ".data &&
    (match t.drop 9 with | d :: _ => d.isDigit | [] => false)

/-- Head matcher for `r'Раздел \d+.*?$'` (case-insensitive). -/
def patRazdel (t : List Char) : Bool :=
  lowerList (t.take 7) = "раздел ".data &&
    (match t.drop 7 with | d :: _ => d.isDigit | [] => false)

/-- Head matcher for `r'Имущественный наем.*?$'` (case-insensitive). -/
def patImushch (t : List Char) : Bool :=
  lowerList (t.take 18) = "имущественный наем".data

/-- Head matcher for `r'Общие положения.*?$'` (case-insensitive). -/
def patObshchie (t : List Char) : Bool :=
  lowerList (t.take 15) = "общие положения".data

/-- Head matcher for `r'Договор.*?найма.*?$'` (case-insensitive): `"договор"`
here, with `"найма"` occurring later in the same line. -/
def patDogovor (t : List Char) : Bool :=
  lowerList (t.take 7) = "договор".data &&
    decide ("найма".data <:+: lowerList (t.drop 7))

/-- Source `re.sub(pat, '', content, flags=re.MULTILINE | re.IGNORECASE)` for the
patterns of `_clean_article_content`, all of which end in `.*?$`: each match
runs from the position where the head matcher fires to the end of that line,
so the substitution deletes, on every line, everything from the first
position where `p` fires to the line end.  Fuel-based scan. -/
def subLinePatternAux (p : List Char → Bool) : Nat → List Char → List Char
  | 0, cs => cs
  | _ + 1, [] => []
  | fuel + 1, c :: rest =>
    if c = '\n' then c :: subLinePatternAux p fuel rest
    else if p ((c :: rest).takeWhile (fun x => x ≠ '\n')) then
      subLinePatternAux p fuel (rest.dropWhile (fun x => x ≠ '\n'))
    else c :: subLinePatternAux p fuel rest

/-- Source `re.sub(pat, '', content, flags=re.MULTILINE | re.IGNORECASE)` for a
line-tail pattern with head matcher `p`. -/
def subLinePattern (p : List Char → Bool) (cs : List Char) : List Char :=
  subLinePatternAux p cs.length cs

/-- First occurrence position of `needle` in `hay` (Python `str.find`,
`none` for `-1`). -/
def findSub (needle hay : List Char) : Option Nat :=
  (List.range (hay.length + 1)).find? (fun i => needle.isPrefixOf (hay.drop i))

/-- Source `chapter_boundaries` (lines 171-173). -/
def chapterBoundaries : List (List Char) :=
  ["Глава".data, "Параграф".data, "Раздел".data, "Имущественный наем".data,
   "Общие положения".data]

/-- The chapter-boundary loop of `_clean_article_content` (lines 176-183):
for the first listed boundary that occurs at a positive position, keep only
the content before it (stripped) and stop. -/
def boundaryTruncate : List Char → List (List Char) → List Char
  | content, [] => content
  | content, b :: bs =>
    match findSub b content with
    | some pos => if 0 < pos then trimChars (content.take pos) else boundaryTruncate content bs
    | none => boundaryTruncate content bs

/-- Model of `_clean_article_content` (lines 149-196): remove the six header
patterns, collapse whitespace and strip, truncate at the first chapter
boundary, then truncate at the second article marker. -/
def cleanArticleContent (content : List Char) : List Char :=
  let c1 := subLinePattern patGlava content
  let c2 := subLinePattern patParagraf c1
  let c3 := subLinePattern patRazdel c2
  let c4 := subLinePattern patImushch c3
  let c5 := subLinePattern patObshchie c4
  let c6 := subLinePattern patDogovor c5
  let c7 := trimChars (collapseWs c6)
  let c8 := boundaryTruncate c7 chapterBoundaries
  truncateAtSecondMarker c8

/-- Value of a list of decimal digit characters (Python `int(...)` on the
digits captured by `(\d+)`). -/
def digitsVal (ds : List Char) : Nat :=
  ds.foldl (fun a c => 10 * a + (c.toNat - 48)) 0

/-- Source `re.match(r'^Статья\s+(\d+)', line, re.IGNORECASE)` (line 109): the
lower-cased line starts with `"статья"`, then at least one whitespace
character, then at least one digit; returns the captured number. -/
def matchArticleLine (line : List Char) : Option Nat :=
  if lowerList (line.take 6) = "статья".data then
    let rest := line.drop 6
    let wsp := rest.takeWhile Char.isWhitespace
    let digs := (rest.dropWhile Char.isWhitespace).takeWhile Char.isDigit
    if ¬wsp.isEmpty ∧ ¬digs.isEmpty then some (digitsVal digs) else none
  else none

/-- One article record of `parse_articles` (the `title` and `source` fields
of the emitted dict are derived from `number` and carry no extra state). -/
structure Article where
  number : Nat
  content : List Char
deriving DecidableEq

/-- Source `' '.join(current_content)`. -/
def joinSpace : List (List Char) → List Char
  | [] => []
  | [l] => l
  | l :: ls => l ++ ' ' :: joinSpace ls

/-- The in-loop flush of `parse_articles` (lines 112-122): the accumulated
content is joined, stripped, CLEANED with `_clean_article_content`, and
appended when longer than 20 characters. -/
def flushCleaned (n : Nat) (curContent : List (List Char)) (out : List Article) :
    List Article :=
  if ¬curContent.isEmpty then
    let content := cleanArticleContent (trimChars (joinSpace curContent))
    if 20 < content.length then out ++ [⟨n, content⟩] else out
  else out

/-- The after-loop flush of `parse_articles` (lines 132-141): the last
accumulated article is joined, stripped and appended when longer than 20
characters — WITHOUT the `_clean_article_content` cleaning step. -/
def flushLast (n : Nat) (curContent : List (List Char)) (out : List Article) :
    List Article :=
  if ¬curContent.isEmpty then
    let content := trimChars (joinSpace curContent)
    if 20 < content.length then out ++ [⟨n, content⟩] else out
  else out

/-- The line loop of `parse_articles` (lines 96-141).  `cur` is
`current_article`, `curContent` is `current_content`, `out` is `articles`. -/
def parseLoop : List (List Char) → Option Nat → List (List Char) → List Article → List Article
  | [], cur, curContent, out =>
    match cur with
    | some n => flushLast n curContent out
    | none => out
  | line :: rest, cur, curContent, out =>
    let l := trimChars line
    if l.isEmpty then parseLoop rest cur curContent out
    else
      match matchArticleLine l with
      | some m =>
        let out' :=
          match cur with
          | some n => flushCleaned n curContent out
          | none => out
        parseLoop rest (some m) [l] out'
      | none =>
        match cur with
        | some _ => parseLoop rest cur (curContent ++ [l]) out
        | none => parseLoop rest cur curContent out

/-- Python `text.split('\n')`. -/
def splitOnNewline (cs : List Char) : List (List Char) := splitOnChar '\n' cs

/-- Model of `parse_articles` before the final sort: the emitted article records in
parse order. -/
def parseArticlesRaw (text : List Char) : List Article :=
  parseLoop (splitOnNewline text) none [] []

/-- Insertion step of a stable sort by article number (Python
`articles.sort(key=lambda x: x['number'])`): `a`, which precedes the already
sorted elements in parse order, is placed before any element with an equal
number. -/
def insertByNumber (a : Article) : List Article → List Article
  | [] => [a]
  | b :: t => if a.number ≤ b.number then a :: b :: t else b :: insertByNumber a t

/-- Stable insertion sort by article number. -/
def sortByNumber : List Article → List Article
  | [] => []
  | a :: t => insertByNumber a (sortByNumber t)

/-- Model of `parse_articles` (lines 90-147): the parsed article records sorted by
article number. -/
def parseArticles (text : List Char) : List Article :=
  sortByNumber (parseArticlesRaw text)

/-! ## Resolver theorems -/

theorem strictMatch_excludes_extension (a b : Nat) (s : List Char)
    (hb : natChars b = natChars a ++ s) (hs : s ≠ []) (c : List Char)
    (hm : strictArticleMatch a c = true) : ¬ (articlePattern b) <+: c := by
  intro hpre
  obtain ⟨u, hu⟩ := hpre
  rw [strictArticleMatch, Bool.and_eq_true] at hm
  obtain ⟨-, h2⟩ := hm
  have hc : c = articlePattern a ++ (s ++ u) := by
    rw [← hu, articlePattern, articlePattern, hb]
    simp [List.append_assoc]
  have hdrop : c.drop (articlePattern a).length = s ++ u := by
    rw [hc]; exact List.drop_left _ _
  cases s with
  | nil => exact hs rfl
  | cons d s' =>
    rw [hdrop] at h2
    simp only [List.cons_append] at h2
    have hd : d.isDigit = true :=
      natChars_digits b d (by rw [hb]; exact List.mem_append_right _ (List.mem_cons_self _ _))
    rw [hd] at h2
    simp at h2

/-- C1: for distinct positive integers `a` and `b` whose decimal
representation of `a` is a proper prefix of that of `b`, `getArticle a`
never selects a unit whose marker is `"Статья {b}"`: a unit is collected by
the exact scan, or accepted from the fallback semantic search, only when its
stripped text passes the strict match for `a` (exact marker followed by a
non-digit), and a text starting with the marker of `b` fails that test. -/
theorem C1_no_partial_match (a b : Nat) (s : List Char)
    (hb : natChars b = natChars a ++ s) (hs : s ≠ [])
    (chunks results : List (List Char)) (c : List Char)
    (hc : c ∈ exactScan a chunks ∨ fallbackScan a results = some c) :
    ¬ (articlePattern b) <+: c := by
  have hm : strictArticleMatch a c = true := by
    rcases hc with hc | hc
    · exact (List.mem_filter.mp hc).2
    · exact List.find?_some hc
  exact strictMatch_excludes_extension a b s hb hs c hm

theorem C1_witness :
    natChars 379 = natChars 37 ++ "9".data ∧
      "Статья 37: Неполная статья".data ∈
        exactScan 37 ["Статья 37: Неполная статья".data,
          "Статья 379: Прекращение обязательства смертью гражданина".data] ∧
      ¬ (articlePattern 379) <+: "Статья 37: Неполная статья".data :=
  ⟨by decide, by decide,
    C1_no_partial_match 37 379 "9".data (by decide) (by decide)
      ["Статья 37: Неполная статья".data,
        "Статья 379: Прекращение обязательства смертью гражданина".data] []
      "Статья 37: Неполная статья".data (Or.inl (by decide))⟩

/-- C2: whenever the exact scan collects one or more matching units, the
returned text is derived from the first collected unit only, in unit-array
order: `_combine_article_parts` cleans exactly the head of the collected
list, and the result of `getArticle` is determined by that head alone, all
later duplicates being discarded without merging. -/
theorem C2_first_unit_canonical (n : Nat) (chunks results : List (List Char))
    (p : List Char) (rest : List (List Char))
    (h : exactScan n chunks = p :: rest) :
    combineArticleParts (p :: rest) = cleanArticleText p ∧
      getArticle n chunks results =
        (if (articlePattern n).isPrefixOf (trimChars (cleanArticleText p)) then
          some (cleanArticleText p) else none) := by
  refine ⟨rfl, ?_⟩
  rw [getArticle, h]
  rfl

theorem C2_witness :
    exactScan 5 ["Статья 5. Право собственности охраняется законом".data,
        "Статья 5. Дубликат единицы для той же статьи".data] =
      ["Статья 5. Право собственности охраняется законом".data,
        "Статья 5. Дубликат единицы для той же статьи".data] ∧
    getArticle 5 ["Статья 5. Право собственности охраняется законом".data,
        "Статья 5. Дубликат единицы для той же статьи".data] [] =
      (if (articlePattern 5).isPrefixOf
          (trimChars (cleanArticleText "Статья 5. Право собственности охраняется законом".data)) then
        some (cleanArticleText "Статья 5. Право собственности охраняется законом".data) else none) :=
  ⟨by decide,
    (C2_first_unit_canonical 5 _ []
      "Статья 5. Право собственности охраняется законом".data
      ["Статья 5. Дубликат единицы для той же статьи".data] (by decide)).2⟩

/-- C3: if cleaning the canonical unit yields a text whose stripped form no
longer starts with the marker `"Статья {n}"`, `getArticle n` returns `none`
instead of that text; consequently every `some` result of the exact-scan
path, after stripping, starts with the marker. -/
theorem C3_postclean_validation (n : Nat) (chunks results : List (List Char))
    (p : List Char) (rest : List (List Char))
    (h : exactScan n chunks = p :: rest) :
    ((articlePattern n).isPrefixOf (trimChars (cleanArticleText p)) = false →
        getArticle n chunks results = none) ∧
      ∀ res, getArticle n chunks results = some res →
        (articlePattern n).isPrefixOf (trimChars res) = true := by
  constructor
  · intro hfail
    rw [getArticle, h]
    show (if (articlePattern n).isPrefixOf (trimChars (cleanArticleText p)) = true then
        some (cleanArticleText p) else none) = none
    simp [hfail]
  · intro res hres
    rw [getArticle, h] at hres
    have hres' : (if (articlePattern n).isPrefixOf (trimChars (cleanArticleText p)) = true then
        some (cleanArticleText p) else none) = some res := hres
    by_cases hv : (articlePattern n).isPrefixOf (trimChars (cleanArticleText p)) = true
    · rw [if_pos hv] at hres'
      cases hres'
      exact hv
    · rw [if_neg hv] at hres'
      cases hres'

theorem C3_witness :
    ((articlePattern 5).isPrefixOf
        (trimChars (cleanArticleText "Статья 5. Право собственности охраняется законом".data)) = false →
      getArticle 5 ["Статья 5. Право собственности охраняется законом".data] [] = none) ∧
    ∀ res, getArticle 5 ["Статья 5. Право собственности охраняется законом".data] [] = some res →
      (articlePattern 5).isPrefixOf (trimChars res) = true :=
  C3_postclean_validation 5 ["Статья 5. Право собственности охраняется законом".data] []
    (trimChars "Статья 5. Право собственности охраняется законом".data) [] (by decide)

/-- C4: `getArticle` is a total function into `Option` (the Python code
wraps the whole body in `try/except` and returns `None` on any exception):
in particular, on any corpus and fallback results containing no strict match
for `999999`, `getArticle 999999` returns absence, not an error. -/
theorem C4_absent_not_crash (chunks results : List (List Char))
    (h1 : ∀ c ∈ chunks, strictArticleMatch 999999 (trimChars c) = false)
    (h2 : ∀ c ∈ results, strictArticleMatch 999999 (trimChars c) = false) :
    getArticle 999999 chunks results = none := by
  have hscan : exactScan 999999 chunks = [] := by
    rw [exactScan, List.filter_eq_nil_iff]
    intro a ha
    obtain ⟨c, hc, rfl⟩ := List.mem_map.mp ha
    simp [h1 c hc]
  rw [getArticle, hscan, fallbackScan]
  rw [List.find?_eq_none]
  intro x hx
  obtain ⟨c, hc, rfl⟩ := List.mem_map.mp hx
  simp [h2 c hc]

theorem C4_witness :
    getArticle 999999 ["Статья 37: Неполная статья".data,
      "Статья 379: Прекращение обязательства смертью гражданина".data] [] = none :=
  C4_absent_not_crash _ _ (by decide) (by decide)

/-! ## Retriever theorems -/

/-- Shape of the ordinals FAISS can return from a flat index: a real ordinal
of the vector set (aligned with `chunks`), or the padding sentinel `-1` used
when the index holds fewer vectors than requested. -/
def faissShaped (chunks : List (List Char)) (h : KnnHit) : Prop :=
  h.idx = -1 ∨ (0 ≤ h.idx ∧ h.idx < (chunks.length : Int))

instance (chunks : List (List Char)) (h : KnnHit) : Decidable (faissShaped chunks h) :=
  inferInstanceAs (Decidable (h.idx = -1 ∨ (0 ≤ h.idx ∧ h.idx < (chunks.length : Int))))

theorem pyIndex_neg_one (chunks : List (List Char)) (hne : chunks ≠ []) :
    pyIndex chunks (-1) = some (chunks.getLast hne) := by
  have hlen : 1 ≤ chunks.length := List.length_pos.mpr hne
  rw [pyIndex, if_neg (by norm_num), if_pos (by omega)]
  have h3 : ((-1 : Int) + chunks.length).toNat = chunks.length - 1 := by omega
  rw [h3, List.getLast_eq_get]
  exact List.get?_eq_get _

theorem faiss_guard {chunks : List (List Char)} {h : KnnHit}
    (hlen : 1 ≤ chunks.length) (hok : faissShaped chunks h) :
    h.idx < (chunks.length : Int) := by
  rcases hok with h1 | ⟨-, hlt⟩
  · rw [h1]; omega
  · exact hlt

theorem pyIndex_ok {chunks : List (List Char)} {h : KnnHit}
    (hlen : 1 ≤ chunks.length) (hok : faissShaped chunks h) :
    ∃ c, pyIndex chunks h.idx = some c := by
  rcases hok with h1 | ⟨h0, hlt⟩
  · rw [h1]
    exact ⟨_, pyIndex_neg_one chunks (List.length_pos.mp hlen)⟩
  · rw [pyIndex, if_pos h0]
    have hn : h.idx.toNat < chunks.length := by omega
    exact ⟨_, List.get?_eq_get hn⟩

theorem searchLoop_cons_valid (chunks : List (List Char)) (qws : List (List Char))
    (topK : Nat) (h : KnnHit) (rest : List KnnHit) (acc : List (List Char × ℚ))
    (c : List Char) (g : h.idx < (chunks.length : Int))
    (hp : pyIndex chunks h.idx = some c) :
    searchLoop chunks qws topK (h :: rest) acc =
      (let acc' := if 0 < relevanceScore qws c ∨ acc.length < 2 then
          acc ++ [(c, score h.dist)]
        else acc
       if topK ≤ acc'.length then some acc' else searchLoop chunks qws topK rest acc') := by
  rw [searchLoop, if_pos g, hp]

theorem searchLoop_extend (chunks : List (List Char)) (qws : List (List Char))
    (topK : Nat) : ∀ (hits : List KnnHit) (acc l : List (List Char × ℚ)),
      searchLoop chunks qws topK hits acc = some l → ∃ t, l = acc ++ t := by
  intro hits
  induction hits with
  | nil =>
    intro acc l h
    rw [searchLoop] at h
    cases h
    exact ⟨[], by simp⟩
  | cons h rest ih =>
    intro acc l hres
    rw [searchLoop] at hres
    split at hres
    · cases hp : pyIndex chunks h.idx with
      | none => rw [hp] at hres; cases hres
      | some c =>
        rw [hp] at hres
        dsimp only at hres
        by_cases hacc : 0 < relevanceScore qws c ∨ acc.length < 2
        · rw [if_pos hacc] at hres
          split at hres
          · cases hres
            exact ⟨[(c, score h.dist)], rfl⟩
          · obtain ⟨t, rfl⟩ := ih _ l hres
            exact ⟨(c, score h.dist) :: t, by simp⟩
        · rw [if_neg hacc] at hres
          split at hres
          · cases hres
            exact ⟨[], by simp⟩
          · exact ih _ l hres
    · exact ih _ l hres

theorem searchLoop_total (chunks : List (List Char)) (qws : List (List Char))
    (topK : Nat) (hlen : 1 ≤ chunks.length) :
    ∀ (hits : List KnnHit) (acc : List (List Char × ℚ)),
      (∀ h ∈ hits, faissShaped chunks h) →
      ∃ l, searchLoop chunks qws topK hits acc = some l := by
  intro hits
  induction hits with
  | nil => intro acc _; exact ⟨acc, by rw [searchLoop]⟩
  | cons h rest ih =>
    intro acc hok
    have g := faiss_guard hlen (hok h (List.mem_cons_self _ _))
    obtain ⟨c, hp⟩ := pyIndex_ok hlen (hok h (List.mem_cons_self _ _))
    rw [searchLoop_cons_valid chunks qws topK h rest acc c g hp]
    dsimp only
    by_cases hacc : 0 < relevanceScore qws c ∨ acc.length < 2
    · rw [if_pos hacc]
      split
      · exact ⟨_, rfl⟩
      · exact ih _ (fun x hx => hok x (List.mem_cons_of_mem _ hx))
    · rw [if_neg hacc]
      split
      · exact ⟨_, rfl⟩
      · exact ih _ (fun x hx => hok x (List.mem_cons_of_mem _ hx))

theorem searchLoop_dists (chunks : List (List Char)) (qws : List (List Char))
    (topK : Nat) : ∀ (hits : List KnnHit) (acc l : List (List Char × ℚ)),
      searchLoop chunks qws topK hits acc = some l →
      ∃ ds : List ℚ, List.Sublist ds (hits.map KnnHit.dist) ∧
        l.map Prod.snd = acc.map Prod.snd ++ ds.map score := by
  intro hits
  induction hits with
  | nil =>
    intro acc l h
    rw [searchLoop] at h
    cases h
    exact ⟨[], List.nil_sublist _, by simp⟩
  | cons h rest ih =>
    intro acc l hres
    rw [searchLoop] at hres
    split at hres
    · cases hp : pyIndex chunks h.idx with
      | none => rw [hp] at hres; cases hres
      | some c =>
        rw [hp] at hres
        dsimp only at hres
        by_cases hacc : 0 < relevanceScore qws c ∨ acc.length < 2
        · rw [if_pos hacc] at hres
          split at hres
          · cases hres
            exact ⟨[h.dist], (List.nil_sublist _).cons₂ _, by simp⟩
          · obtain ⟨ds, hsub, hmap⟩ := ih _ l hres
            refine ⟨h.dist :: ds, hsub.cons₂ _, ?_⟩
            rw [hmap]
            simp
        · rw [if_neg hacc] at hres
          split at hres
          · cases hres
            exact ⟨[], List.nil_sublist _, by simp⟩
          · obtain ⟨ds, hsub, hmap⟩ := ih _ l hres
            exact ⟨ds, hsub.cons _, hmap⟩
    · obtain ⟨ds, hsub, hmap⟩ := ih _ l hres
      exact ⟨ds, hsub.cons _, hmap⟩

theorem fallbackTop2_dists (chunks : List (List Char)) :
    ∀ (hs : List KnnHit) (l : List (List Char × ℚ)),
      fallbackTop2 chunks hs = some l →
      ∃ ds : List ℚ, List.Sublist ds (hs.map KnnHit.dist) ∧
        l.map Prod.snd = ds.map score := by
  intro hs
  induction hs with
  | nil =>
    intro l h
    rw [fallbackTop2] at h
    cases h
    exact ⟨[], List.nil_sublist _, by simp⟩
  | cons h rest ih =>
    intro l hres
    rw [fallbackTop2] at hres
    split at hres
    · cases hp : pyIndex chunks h.idx with
      | none => rw [hp] at hres; cases hres
      | some c =>
        rw [hp] at hres
        dsimp only at hres
        cases hfb : fallbackTop2 chunks rest with
        | none => rw [hfb] at hres; cases hres
        | some l' =>
          rw [hfb] at hres
          cases hres
          obtain ⟨ds, hsub, hmap⟩ := ih l' hfb
          refine ⟨h.dist :: ds, hsub.cons₂ _, ?_⟩
          rw [List.map_cons, hmap]
          simp
    · obtain ⟨ds, hsub, hmap⟩ := ih l hres
      exact ⟨ds, hsub.cons _, hmap⟩

theorem search_dists (chunks : List (List Char)) (q : List Char) (topK : Nat)
    (hits : List KnnHit) (l : List (List Char × ℚ))
    (hl : search chunks q topK hits = some l) :
    ∃ ds : List ℚ, List.Sublist ds (hits.map KnnHit.dist) ∧
      l.map Prod.snd = ds.map score := by
  rw [search] at hl
  cases hsl : searchLoop chunks (queryWords q) topK hits [] with
  | none => rw [hsl] at hl; cases hl
  | some results =>
    rw [hsl] at hl
    dsimp only at hl
    split at hl
    · cases hfb : fallbackTop2 chunks (hits.take 2) with
      | none => rw [hfb] at hl; cases hl
      | some fb =>
        rw [hfb] at hl
        cases hl
        obtain ⟨ds, hsub, hmap⟩ := fallbackTop2_dists chunks _ fb hfb
        refine ⟨ds.take topK, ?_, ?_⟩
        · exact ((ds.take_sublist topK).trans hsub).trans ((hits.take_sublist 2).map _)
        · rw [List.map_take, List.map_take, hmap]
    · cases hl
      obtain ⟨ds, hsub, hmap⟩ := searchLoop_dists chunks (queryWords q) topK hits [] results hsl
      refine ⟨ds.take topK, (ds.take_sublist topK).trans hsub, ?_⟩
      rw [List.map_take, List.map_take, hmap]
      simp

theorem score_pos {d : ℚ} (hd : 0 ≤ d) : 0 < score d := by
  rw [score]
  exact div_pos one_pos (by linarith)

theorem score_le_one {d : ℚ} (hd : 0 ≤ d) : score d ≤ 1 := by
  rw [score]
  rw [div_le_one (by linarith)]
  linarith

theorem score_anti {d₁ d₂ : ℚ} (h1 : 0 ≤ d₁) (h12 : d₁ ≤ d₂) :
    score d₂ ≤ score d₁ := by
  rw [score, score]
  exact one_div_le_one_div_of_le (by linarith) (by linarith)

theorem score_strict_anti {d₁ d₂ : ℚ} (h1 : 0 ≤ d₁) (h12 : d₁ < d₂) :
    score d₂ < score d₁ := by
  rw [score, score]
  exact one_div_lt_one_div_of_lt (by linarith) (by linarith)

theorem search_take_two (chunks : List (List Char)) (q : List Char) (topK : Nat)
    (h1 h2 : KnnHit) (rest : List KnnHit) (c1 c2 : List Char)
    (l : List (List Char × ℚ)) (htop : 2 ≤ topK)
    (g1 : h1.idx < (chunks.length : Int)) (p1 : pyIndex chunks h1.idx = some c1)
    (g2 : h2.idx < (chunks.length : Int)) (p2 : pyIndex chunks h2.idx = some c2)
    (hl : search chunks q topK (h1 :: h2 :: rest) = some l) :
    l.take 2 = [(c1, score h1.dist), (c2, score h2.dist)] := by
  have step1 := searchLoop_cons_valid chunks (queryWords q) topK h1 (h2 :: rest) [] c1 g1 p1
  rw [if_pos (Or.inr (by simp))] at step1
  have hnb1 : ¬ topK ≤ ([] ++ [(c1, score h1.dist)] : List (List Char × ℚ)).length := by
    simp; omega
  rw [if_neg hnb1] at step1
  have step2 := searchLoop_cons_valid chunks (queryWords q) topK h2 rest
    ([] ++ [(c1, score h1.dist)]) c2 g2 p2
  rw [if_pos (Or.inr (by simp))] at step2
  rw [step2] at step1
  dsimp only at step1
  set e12 : List (List Char × ℚ) :=
    [] ++ [(c1, score h1.dist)] ++ [(c2, score h2.dist)] with he12
  obtain ⟨results, hres, hpre⟩ :
      ∃ results, searchLoop chunks (queryWords q) topK (h1 :: h2 :: rest) [] = some results ∧
        ∃ t, results = e12 ++ t := by
    by_cases hb : topK ≤ e12.length
    · rw [if_pos hb] at step1
      exact ⟨e12, step1, [], by simp⟩
    · rw [if_neg hb] at step1
      rw [search] at hl
      cases hsl : searchLoop chunks (queryWords q) topK (h1 :: h2 :: rest) [] with
      | none => rw [hsl] at hl; cases hl
      | some res =>
        rw [hsl] at step1
        obtain ⟨t, ht⟩ := searchLoop_extend chunks (queryWords q) topK rest e12 res step1.symm
        exact ⟨res, rfl, t, ht⟩
  obtain ⟨t, rfl⟩ := hpre
  rw [search, hres] at hl
  dsimp only at hl
  have hemp : (e12 ++ t).isEmpty = false := by simp [he12]
  rw [hemp] at hl
  simp only [Bool.false_eq_true, if_false] at hl
  cases hl
  rw [List.take_take, Nat.min_eq_left htop]
  simp [he12]

/-- C5: for every query and `topK ≥ 1`, `search` returns at most `topK`
results, and at least one result whenever the index holds at least two
units (the FAISS call then returns `2*topK` hits, each a real ordinal or the
`-1` sentinel). -/
theorem C5_search_bounds (chunks : List (List Char)) (q : List Char) (topK : Nat)
    (hits : List KnnHit) (htop : 1 ≤ topK) (hlen : hits.length = 2 * topK)
    (hch : 2 ≤ chunks.length) (hok : ∀ h ∈ hits, faissShaped chunks h) :
    ∃ l, search chunks q topK hits = some l ∧ 1 ≤ l.length ∧ l.length ≤ topK := by
  have hch1 : 1 ≤ chunks.length := by omega
  cases hits with
  | nil => simp at hlen; omega
  | cons h rest =>
    have g := faiss_guard hch1 (hok h (List.mem_cons_self _ _))
    obtain ⟨c, hp⟩ := pyIndex_ok hch1 (hok h (List.mem_cons_self _ _))
    have step := searchLoop_cons_valid chunks (queryWords q) topK h rest [] c g hp
    rw [if_pos (Or.inr (by simp))] at step
    have hbig : ∃ L : List (List Char × ℚ),
        searchLoop chunks (queryWords q) topK (h :: rest) [] = some L ∧ 1 ≤ L.length := by
      by_cases hb : topK ≤ ([] ++ [(c, score h.dist)] : List (List Char × ℚ)).length
      · rw [if_pos hb] at step
        exact ⟨_, step, by simp⟩
      · rw [if_neg hb] at step
        obtain ⟨l₀, hl₀⟩ := searchLoop_total chunks (queryWords q) topK hch1 rest
          ([] ++ [(c, score h.dist)]) (fun x hx => hok x (List.mem_cons_of_mem _ hx))
        obtain ⟨t, rfl⟩ := searchLoop_extend chunks (queryWords q) topK rest _ l₀ hl₀
        rw [hl₀] at step
        exact ⟨_, step, by simp⟩
    obtain ⟨L, hL, hL1⟩ := hbig
    refine ⟨L.take topK, ?_, ?_, ?_⟩
    · rw [search, hL]
      dsimp only
      have hemp : L.isEmpty = false := by
        cases L with
        | nil => simp at hL1
        | cons a t => simp
      rw [hemp]
      simp
    · rw [List.length_take]
      omega
    · rw [List.length_take]
      omega

theorem C5_witness :
    ∃ l, search ["правовой текст один".data, "правовой текст два".data]
        "запрос".data 1 [⟨0, 1⟩, ⟨1, 2⟩] = some l ∧ 1 ≤ l.length ∧ l.length ≤ 1 :=
  C5_search_bounds _ _ 1 _ (by norm_num) (by decide) (by decide) (by decide)

/-- C6: a valid k-NN candidate (one whose ordinal passes the bound check and
resolves to a chunk) is accepted into the results exactly when its
query-word overlap count is positive or fewer than two results have been
accepted so far; consequently the first two valid candidates are always
accepted, even with zero lexical overlap. -/
theorem C6_accept_rule (chunks : List (List Char)) (q : List Char) (topK : Nat) :
    (∀ (h : KnnHit) (rest : List KnnHit) (acc : List (List Char × ℚ)) (c : List Char),
      h.idx < (chunks.length : Int) → pyIndex chunks h.idx = some c →
      searchLoop chunks (queryWords q) topK (h :: rest) acc =
        (let acc' := if 0 < relevanceScore (queryWords q) c ∨ acc.length < 2 then
            acc ++ [(c, score h.dist)]
          else acc
         if topK ≤ acc'.length then some acc'
         else searchLoop chunks (queryWords q) topK rest acc')) ∧
    (∀ (h1 h2 : KnnHit) (rest : List KnnHit) (c1 c2 : List Char)
        (l : List (List Char × ℚ)), 2 ≤ topK →
      h1.idx < (chunks.length : Int) → pyIndex chunks h1.idx = some c1 →
      h2.idx < (chunks.length : Int) → pyIndex chunks h2.idx = some c2 →
      search chunks q topK (h1 :: h2 :: rest) = some l →
      l.take 2 = [(c1, score h1.dist), (c2, score h2.dist)]) := by
  constructor
  · intro h rest acc c g hp
    exact searchLoop_cons_valid chunks (queryWords q) topK h rest acc c g hp
  · intro h1 h2 rest c1 c2 l htop g1 p1 g2 p2 hl
    exact search_take_two chunks q topK h1 h2 rest c1 c2 l htop g1 p1 g2 p2 hl

theorem C6_witness :
    ([("правовой текст один".data, score 0), ("правовой текст два".data, score 1)]
        : List (List Char × ℚ)).take 2 =
      [("правовой текст один".data, score 0), ("правовой текст два".data, score 1)] :=
  (C6_accept_rule ["правовой текст один".data, "правовой текст два".data]
      "запрос".data 2).2 ⟨0, 0⟩ ⟨1, 1⟩ [] _ _ _ (by norm_num) (by decide) (by decide)
    (by decide) (by decide) (by rfl)

/-- C7: every score in a returned search result is `1 / (1 + d)` for the L2
distance `d` the k-NN search reported for some hit, and for every `d ≥ 0`
that value lies in `(0, 1]` and is strictly decreasing in `d`. -/
theorem C7_score_formula (chunks : List (List Char)) (q : List Char) (topK : Nat)
    (hits : List KnnHit) (l : List (List Char × ℚ)) :
    (search chunks q topK hits = some l →
      ∀ p ∈ l, ∃ h ∈ hits, p.2 = score h.dist) ∧
    (∀ d : ℚ, 0 ≤ d → 0 < score d ∧ score d ≤ 1) ∧
    (∀ d₁ d₂ : ℚ, 0 ≤ d₁ → d₁ < d₂ → score d₂ < score d₁) := by
  refine ⟨?_, fun d hd => ⟨score_pos hd, score_le_one hd⟩,
    fun d₁ d₂ h1 h12 => score_strict_anti h1 h12⟩
  intro hl p hp
  obtain ⟨ds, hsub, hmap⟩ := search_dists chunks q topK hits l hl
  have hp2 : p.2 ∈ l.map Prod.snd := List.mem_map_of_mem _ hp
  rw [hmap] at hp2
  obtain ⟨d, hd, hde⟩ := List.mem_map.mp hp2
  obtain ⟨h, hh, hhd⟩ := List.mem_map.mp (hsub.subset hd)
  exact ⟨h, hh, by rw [← hde, hhd]⟩

theorem C7_witness :
    (∀ p ∈ ([("правовой текст один".data, score 0), ("правовой текст два".data, score 1)]
        : List (List Char × ℚ)),
      ∃ h ∈ ([⟨0, 0⟩, ⟨1, 1⟩] : List KnnHit), p.2 = score h.dist) ∧
    (0 < score 2 ∧ score 2 ≤ 1) :=
  ⟨(C7_score_formula ["правовой текст один".data, "правовой текст два".data]
      "запрос".data 2 [⟨0, 0⟩, ⟨1, 1⟩] _).1 (by rfl),
    (C7_score_formula [] [] 1 [] []).2.1 2 (by norm_num)⟩

/-- C8: within the sequence returned by a single `search` call, scores are
non-increasing in sequence order — accepted candidates keep the
ascending-distance order of the k-NN hits and are never re-sorted by lexical
overlap, and the zero-accepted fallback path also keeps ascending-distance
(descending-similarity) order. -/
theorem C8_scores_nonincreasing (chunks : List (List Char)) (q : List Char)
    (topK : Nat) (hits : List KnnHit) (l : List (List Char × ℚ))
    (hsorted : hits.Pairwise (fun a b => a.dist ≤ b.dist))
    (hnn : ∀ h ∈ hits, 0 ≤ h.dist)
    (hl : search chunks q topK hits = some l) :
    l.Pairwise (fun p p' => p'.2 ≤ p.2) := by
  obtain ⟨ds, hsub, hmap⟩ := search_dists chunks q topK hits l hl
  have hds : ds.Pairwise (· ≤ ·) :=
    (List.pairwise_map.mpr hsorted).sublist hsub
  have hnn' : ∀ d ∈ ds, 0 ≤ d := by
    intro d hd
    obtain ⟨h, hh, hhd⟩ := List.mem_map.mp (hsub.subset hd)
    rw [← hhd]
    exact hnn h hh
  have hpair : (ds.map score).Pairwise (fun a b => b ≤ a) := by
    rw [List.pairwise_map]
    refine hds.imp_of_mem ?_
    intro a b ha hb hab
    exact score_anti (hnn' a ha) hab
  rw [← hmap] at hpair
  exact List.pairwise_map.mp hpair

theorem C8_witness :
    ([("правовой текст один".data, score 0), ("правовой текст два".data, score 1)]
        : List (List Char × ℚ)).Pairwise (fun p p' => p'.2 ≤ p.2) :=
  C8_scores_nonincreasing ["правовой текст один".data, "правовой текст два".data]
    "запрос".data 2 [⟨0, 0⟩, ⟨1, 1⟩] _ (by decide) (by decide) (by rfl)

/-- C10: the bound check in `search` only tests `idx < len(chunks)` and so
does not exclude the `-1` sentinel that a flat index returns when it holds
fewer than `2*topK` vectors; the sentinel resolves by Python negative
indexing to the LAST unit of the array, so `search` can include the last
unit in its results — possibly more than once — although the k-NN search
did not match it. -/
theorem C10_sentinel_yields_last (chunks : List (List Char)) (q : List Char)
    (topK : Nat) (h1 h2 : KnnHit) (rest : List KnnHit) (l : List (List Char × ℚ))
    (hne : chunks ≠ []) (h1s : h1.idx = -1) (h2s : h2.idx = -1) (htop : 2 ≤ topK)
    (hl : search chunks q topK (h1 :: h2 :: rest) = some l) :
    l.take 2 = [(chunks.getLast hne, score h1.dist),
      (chunks.getLast hne, score h2.dist)] := by
  have hlen : 1 ≤ chunks.length := List.length_pos.mpr hne
  have g1 : h1.idx < (chunks.length : Int) := by rw [h1s]; omega
  have g2 : h2.idx < (chunks.length : Int) := by rw [h2s]; omega
  have p1 : pyIndex chunks h1.idx = some (chunks.getLast hne) := by
    rw [h1s]; exact pyIndex_neg_one chunks hne
  have p2 : pyIndex chunks h2.idx = some (chunks.getLast hne) := by
    rw [h2s]; exact pyIndex_neg_one chunks hne
  exact search_take_two chunks q topK h1 h2 rest _ _ l htop g1 p1 g2 p2 hl

theorem C10_witness :
    ([("правовой текст два".data, score 0), ("правовой текст два".data, score 1)]
        : List (List Char × ℚ)).take 2 =
      [("правовой текст два".data, score 0), ("правовой текст два".data, score 1)] :=
  C10_sentinel_yields_last ["правовой текст один".data, "правовой текст два".data]
    "запрос".data 2 ⟨-1, 0⟩ ⟨-1, 1⟩ [] _ (by decide) rfl rfl (by norm_num) (by rfl)

/-! ## Segmenter theorems -/

theorem isPrefixOf_eq_true {l1 l2 : List Char} :
    l1.isPrefixOf l2 = true ↔ l1 <+: l2 := List.isPrefixOf_iff_prefix

theorem take_isPre {α : Type} (n : Nat) (l : List α) : l.take n <+: l :=
  List.take_prefix n l

theorem markerPat_len : markerPat.length = 7 := rfl

theorem isMarkerAt_length {mid : List Char} {a : Nat}
    (h : isMarkerAt mid a = true) : a + 8 ≤ mid.length := by
  rw [isMarkerAt, Bool.and_eq_true] at h
  obtain ⟨h1, h2⟩ := h
  have hp := isPrefixOf_eq_true.mp h1
  have hlen : markerPat.length ≤ (mid.drop a).length := hp.length_le
  rw [markerPat_len, List.length_drop] at hlen
  cases hdd : (mid.drop a).drop markerPat.length with
  | nil => rw [hdd] at h2; cases h2
  | cons d t =>
    have := congrArg List.length hdd
    rw [List.length_drop, List.length_drop, markerPat_len] at this
    simp at this
    omega

theorem isMarkerAt_append {mid : List Char} (suf : List Char) {a : Nat}
    (h : isMarkerAt mid a = true) : isMarkerAt (mid ++ suf) a = true := by
  have hle : a ≤ mid.length := by have := isMarkerAt_length h; omega
  rw [isMarkerAt, Bool.and_eq_true] at h
  obtain ⟨h1, h2⟩ := h
  rw [isMarkerAt, List.drop_append_of_le_length hle, Bool.and_eq_true]
  constructor
  · exact isPrefixOf_eq_true.mpr ((isPrefixOf_eq_true.mp h1).trans (List.prefix_append _ _))
  · have h7 : markerPat.length ≤ (mid.drop a).length := (isPrefixOf_eq_true.mp h1).length_le
    rw [List.drop_append_of_le_length h7]
    cases hdd : (mid.drop a).drop markerPat.length with
    | nil => rw [hdd] at h2; cases h2
    | cons d t =>
      rw [hdd] at h2
      exact h2

theorem isMarkerAt_cons (x : Char) (mid : List Char) (a : Nat) :
    isMarkerAt (x :: mid) (a + 1) = isMarkerAt mid a := by
  rw [isMarkerAt, isMarkerAt, List.drop_succ_cons]

theorem isMarkerAt_take {cs : List Char} {j a : Nat}
    (h : isMarkerAt (cs.take j) a = true) :
    isMarkerAt cs a = true ∧ a + 8 ≤ j := by
  rw [isMarkerAt, Bool.and_eq_true] at h
  obtain ⟨h1, h2⟩ := h
  have hd : (cs.take j).drop a = (cs.drop a).take (j - a) := List.drop_take j a cs
  rw [hd] at h1 h2
  have hd2 : ((cs.drop a).take (j - a)).drop markerPat.length =
      ((cs.drop a).drop markerPat.length).take (j - a - markerPat.length) :=
    List.drop_take (j - a) markerPat.length (cs.drop a)
  rw [hd2] at h2
  cases hdd : ((cs.drop a).drop markerPat.length).take (j - a - markerPat.length) with
  | nil => rw [hdd] at h2; cases h2
  | cons d t =>
    rw [hdd] at h2
    have hlen := congrArg List.length hdd
    rw [List.length_take, List.length_cons] at hlen
    have hja : 1 ≤ j - a - markerPat.length := by omega
    constructor
    · rw [isMarkerAt, Bool.and_eq_true]
      constructor
      · exact isPrefixOf_eq_true.mpr
          ((isPrefixOf_eq_true.mp h1).trans (take_isPre _ _))
      · cases hX : (cs.drop a).drop markerPat.length with
        | nil => rw [hX] at hdd; simp at hdd
        | cons y ys =>
          rw [hX] at hdd
          cases hj : j - a - markerPat.length with
          | zero => rw [hj] at hdd; simp at hdd
          | succ k =>
            rw [hj, List.take_succ_cons] at hdd
            cases hdd
            exact h2
    · rw [markerPat_len] at hja
      omega

theorem mem_markerPositions {cs : List Char} {a : Nat} :
    a ∈ markerPositions cs ↔ a < cs.length ∧ isMarkerAt cs a = true := by
  rw [markerPositions, List.mem_filter, List.mem_range]

theorem markerPositions_sorted (cs : List Char) :
    (markerPositions cs).Pairwise (· < ·) :=
  (List.pairwise_lt_range cs.length).filter _

theorem markerPositions_append_le (mid suf : List Char) :
    (markerPositions mid).length ≤ (markerPositions (mid ++ suf)).length := by
  have key : List.Sublist ((List.range mid.length).filter (isMarkerAt mid))
      ((List.range mid.length).filter (isMarkerAt (mid ++ suf))) :=
    List.monotone_filter_right _ (fun a hma => isMarkerAt_append suf hma)
  have h2 : markerPositions (mid ++ suf) =
      (List.range mid.length).filter (isMarkerAt (mid ++ suf)) ++
        ((List.range suf.length).map (fun x => mid.length + x)).filter
          (isMarkerAt (mid ++ suf)) := by
    rw [markerPositions, List.length_append, List.range_add, List.filter_append]
  rw [markerPositions, h2, List.length_append]
  have h3 := key.length_le
  omega

theorem markerPositions_cons_le (x : Char) (mid : List Char) :
    (markerPositions mid).length ≤ (markerPositions (x :: mid)).length := by
  have h2 : (List.filter (isMarkerAt (x :: mid)) ((List.range mid.length).map Nat.succ)).length =
      (List.filter (isMarkerAt mid) (List.range mid.length)).length := by
    rw [List.filter_map, List.length_map]
    have h4 : List.filter (isMarkerAt (x :: mid) ∘ Nat.succ) (List.range mid.length) =
        List.filter (isMarkerAt mid) (List.range mid.length) :=
      List.filter_congr (fun a _ => isMarkerAt_cons x mid a)
    rw [h4]
  rw [markerPositions, markerPositions, List.length_cons, List.range_succ_eq_map,
    List.filter_cons]
  split
  · rw [List.length_cons, h2]
    omega
  · rw [h2]

theorem markerPositions_pre_le (pre mid : List Char) :
    (markerPositions mid).length ≤ (markerPositions (pre ++ mid)).length := by
  induction pre with
  | nil => simp
  | cons x pre ih => exact ih.trans (markerPositions_cons_le x (pre ++ mid))

theorem markerPositions_le_of_isInfix {mid cs : List Char} (h : mid <:+: cs) :
    (markerPositions mid).length ≤ (markerPositions cs).length := by
  obtain ⟨pre, suf, rfl⟩ := h
  calc (markerPositions mid).length
      ≤ (markerPositions (mid ++ suf)).length := markerPositions_append_le mid suf
    _ ≤ (markerPositions (pre ++ (mid ++ suf))).length := markerPositions_pre_le _ _
    _ = (markerPositions (pre ++ mid ++ suf)).length := by rw [List.append_assoc]

theorem trimChars_isInfix (cs : List Char) : trimChars cs <:+: cs := by
  have h1 : cs.dropWhile Char.isWhitespace <:+ cs :=
    ⟨cs.takeWhile Char.isWhitespace, List.takeWhile_append_dropWhile _ _⟩
  have h2 : trimChars cs <+: cs.dropWhile Char.isWhitespace := by
    refine ⟨((cs.dropWhile Char.isWhitespace).reverse.takeWhile Char.isWhitespace).reverse, ?_⟩
    rw [trimChars, ← List.reverse_append, List.takeWhile_append_dropWhile,
      List.reverse_reverse]
  obtain ⟨pre, hpre⟩ := h1
  obtain ⟨suf, hsuf⟩ := h2
  exact ⟨pre, suf, by rw [List.append_assoc, hsuf, hpre]⟩

theorem pairwise_lt_all_eq {l : List Nat} (i : Nat) (hp : l.Pairwise (· < ·))
    (hall : ∀ x ∈ l, x = i) : l.length ≤ 1 := by
  match l, hp with
  | [], _ => simp
  | [a], _ => simp
  | a :: b :: t, hp =>
    have hab : a < b := (List.pairwise_cons.mp hp).1 b (List.mem_cons_self _ _)
    have ha : a = i := hall a (List.mem_cons_self _ _)
    have hb : b = i := hall b (List.mem_cons_of_mem _ (List.mem_cons_self _ _))
    omega

theorem markerPositions_take_le_one {cs : List Char} {i j : Nat} {rest : List Nat}
    (h : markerPositions cs = i :: j :: rest) :
    (markerPositions (cs.take j)).length ≤ 1 := by
  have hsorted := markerPositions_sorted cs
  rw [h] at hsorted
  have hij : i < j := (List.pairwise_cons.mp hsorted).1 j (List.mem_cons_self _ _)
  have hrest : ∀ x ∈ rest, j < x :=
    (List.pairwise_cons.mp (List.pairwise_cons.mp hsorted).2).1
  have hjlen : j < cs.length := by
    have : j ∈ markerPositions cs := by rw [h]; exact List.mem_cons_of_mem _ (List.mem_cons_self _ _)
    exact (mem_markerPositions.mp this).1
  refine pairwise_lt_all_eq i (markerPositions_sorted _) ?_
  intro p hp
  obtain ⟨hplen, hpm⟩ := mem_markerPositions.mp hp
  obtain ⟨hpcs, hpj⟩ := isMarkerAt_take hpm
  have hpmem : p ∈ markerPositions cs := mem_markerPositions.mpr ⟨by omega, hpcs⟩
  rw [h] at hpmem
  rcases List.mem_cons.mp hpmem with rfl | hpmem
  · rfl
  · rcases List.mem_cons.mp hpmem with rfl | hpmem
    · omega
    · have := hrest p hpmem
      omega

theorem truncateAtSecondMarker_le_one (cs : List Char) :
    (markerPositions (truncateAtSecondMarker cs)).length ≤ 1 := by
  rw [truncateAtSecondMarker]
  cases h : markerPositions cs with
  | nil => rw [h]; simp
  | cons i tl =>
    cases tl with
    | nil => rw [h]; simp
    | cons j rest =>
      calc (markerPositions (trimChars (cs.take j))).length
          ≤ (markerPositions (cs.take j)).length :=
            markerPositions_le_of_isInfix (trimChars_isInfix _)
        _ ≤ 1 := markerPositions_take_le_one h

theorem cleanArticleContent_le_one (content : List Char) :
    (markerPositions (cleanArticleContent content)).length ≤ 1 := by
  rw [cleanArticleContent]
  exact truncateAtSecondMarker_le_one _

theorem flushCleaned_inv {n : Nat} {curContent : List (List Char)}
    {out : List Article}
    (hout : ∀ u ∈ out, (markerPositions u.content).length ≤ 1) :
    ∀ u ∈ flushCleaned n curContent out, (markerPositions u.content).length ≤ 1 := by
  intro u hu
  rw [flushCleaned] at hu
  split at hu
  · dsimp only at hu
    generalize hC : cleanArticleContent (trimChars (joinSpace curContent)) = C at hu
    split at hu
    · rcases List.mem_append.mp hu with hu | hu
      · exact hout u hu
      · rcases List.mem_cons.mp hu with rfl | hu
        · dsimp only
          rw [← hC]
          exact cleanArticleContent_le_one _
        · cases hu
    · exact hout u hu
  · exact hout u hu

theorem flushLast_dropLast {n : Nat} {curContent : List (List Char)}
    {out : List Article} {u : Article}
    (hu : u ∈ (flushLast n curContent out).dropLast) : u ∈ out := by
  rw [flushLast] at hu
  split at hu
  · dsimp only at hu
    generalize trimChars (joinSpace curContent) = C at hu
    split at hu
    · rw [List.dropLast_concat] at hu
      exact hu
    · exact (List.dropLast_sublist out).subset hu
  · exact (List.dropLast_sublist out).subset hu

theorem parseLoop_dropLast_clean :
    ∀ (lines : List (List Char)) (cur : Option Nat) (curContent : List (List Char))
      (out : List Article),
      (∀ u ∈ out, (markerPositions u.content).length ≤ 1) →
      ∀ u ∈ (parseLoop lines cur curContent out).dropLast,
        (markerPositions u.content).length ≤ 1 := by
  intro lines
  induction lines with
  | nil =>
    intro cur curContent out hout u hu
    rw [parseLoop.eq_def] at hu
    dsimp only at hu
    cases cur with
    | none => exact hout u ((List.dropLast_sublist out).subset hu)
    | some n =>
      dsimp only at hu
      exact hout u (flushLast_dropLast hu)
  | cons line rest ih =>
    intro cur curContent out hout u hu
    rw [parseLoop.eq_def] at hu
    dsimp only at hu
    split at hu
    · exact ih cur curContent out hout u hu
    · split at hu
      · refine ih _ _ _ ?_ u hu
        intro v hv
        cases cur with
        | none => exact hout v hv
        | some n => exact flushCleaned_inv hout v hv
      · cases cur with
        | some m => exact ih _ _ _ hout u hu
        | none => exact ih _ _ _ hout u hu

/-- C9 (counterexample): the claim "every unit emitted by the corpus
segmenter has content containing at most one marker occurrence" fails on the
code: `parse_articles` appends the FINAL flushed article without calling
`_clean_article_content` (lines 132-141), so on this concrete corpus text
the emitted unit for article 2 retains a second in-line marker occurrence
(`"Статья 3"`), giving occurrence counts `[1, 2]`. -/
theorem C9_counterexample :
    (parseArticles ("Статья 1\nПервая статья о правах и обязанностях граждан\nСтатья 2\nВторая статья текст про Статья 3 внутри строки").data).map
      (fun u => (markerPositions u.content).length) = [1, 2] := by decide

/-- C9 (amended): every unit emitted through the cleaning path of the
segmenter has content with at most one occurrence of the article-marker
pattern: `_clean_article_content` truncates content with a second marker
occurrence just before that occurrence, so every emitted unit EXCEPT the
final flushed one (which the code appends uncleaned) has at most one marker
occurrence. -/
theorem C9_truncation_amended :
    (∀ cs : List Char, (markerPositions (cleanArticleContent cs)).length ≤ 1) ∧
    (∀ (cs : List Char) (i j : Nat) (rest : List Nat),
      markerPositions cs = i :: j :: rest →
      truncateAtSecondMarker cs = trimChars (cs.take j)) ∧
    (∀ text : List Char, ∀ u ∈ (parseArticlesRaw text).dropLast,
      (markerPositions u.content).length ≤ 1) := by
  refine ⟨cleanArticleContent_le_one, ?_, ?_⟩
  · intro cs i j rest h
    rw [truncateAtSecondMarker, h]
  · intro text u hu
    exact parseLoop_dropLast_clean (splitOnNewline text) none [] []
      (by intro v hv; cases hv) u hu

theorem C9_witness :
    (markerPositions (cleanArticleContent "Статья 5 текст и Статья 6 текст".data)).length ≤ 1 ∧
    (markerPositions
      (Article.mk 1 "Статья 1 Первая статья о правах и обязанностях граждан".data).content).length ≤ 1 :=
  ⟨C9_truncation_amended.1 _,
    C9_truncation_amended.2.2
      ("Статья 1\nПервая статья о правах и обязанностях граждан\nСтатья 2\nВторая статья текст про Статья 3 внутри строки").data
      ⟨1, "Статья 1 Первая статья о правах и обязанностях граждан".data⟩ (by decide)⟩
